import Mathlib

/-!
Shallow embedding of the directed-graph engine of `src/src/graph.rs`
(repository `tap`): arena-based nodes and edges, intrusive per-node
adjacency chains, and the three traversal queries (successors, roots,
ancestors).  `NodeIndex`/`EdgeIndex` are embedded as plain `Nat`;
`Vec` as `List`; a Rust `panic!` as an `Option.none` result.  The Rust
iterators (`Successors`, `Ancestors`) are embedded as the full finite
sequence they produce when drained; the node-mode chain walk carries
explicit fuel, and `EdgesWF` below records the arena invariant (every
chain link points strictly backwards) under which the fuel
`edges.length` is always sufficient, matching the iterator's actual
termination behaviour on graphs built through the public API.
-/

namespace Tap

/-- Embeds `Node<T>` of graph.rs: payload plus the head of the intrusive
outgoing-edge chain. -/
structure Node (T : Type) where
  first_edge : Option Nat
  data : T
deriving DecidableEq, Repr

/-- Embeds `Edge` of graph.rs: endpoints plus the next edge sharing the
same source. -/
structure Edge where
  source : Nat
  target : Nat
  next_edge : Option Nat
deriving DecidableEq, Repr

/-- Embeds `Graph<T>` of graph.rs: the two append-only arenas. -/
structure Graph (T : Type) where
  nodes : List (Node T)
  edges : List Edge
deriving DecidableEq, Repr

/-- Embeds `Graph::new`. -/
def Graph.new (T : Type) : Graph T :=
  { nodes := [], edges := [] }

/-- Embeds `Graph::add_node`: push a node with no outgoing edge, return
the pre-insertion length as its handle. -/
def Graph.add_node {T : Type} (g : Graph T) (data : T) : Graph T × Nat :=
  ({ nodes := g.nodes ++ [{ first_edge := none, data := data }], edges := g.edges },
   g.nodes.length)

/-- `nodes[i].first_edge`; `none` when `i` is out of range (callers in
the embedding only read it in range, as the Rust indexing does). -/
def firstEdge {T : Type} (nodes : List (Node T)) (i : Nat) : Option Nat :=
  match nodes[i]? with
  | some n => n.first_edge
  | none => none

/-- `nodes[i].first_edge = e`, the write performed at the end of
`Graph::add_edge`; out of range it is the identity. -/
def setFirstEdge {T : Type} (nodes : List (Node T)) (i : Nat) (e : Option Nat) :
    List (Node T) :=
  match nodes[i]? with
  | some n => nodes.set i { n with first_edge := e }
  | none => nodes

/-- Embeds `Graph::add_edge`.  The two `panic!("invalid edge")` sites
become `none`; on success the new edge is appended with `next_edge` set
to the prior chain head of `source`, which is then updated to the new
edge's handle. -/
def Graph.add_edge {T : Type} (g : Graph T) (source target : Nat) : Option (Graph T) :=
  if g.nodes.length < 2 ∨ source = target ∨
      g.nodes.length ≤ source ∨ g.nodes.length ≤ target then
    none
  else if g.edges.any fun e => e.source == source && e.target == target then
    none
  else
    some { nodes := setFirstEdge g.nodes source (some g.edges.length),
           edges := g.edges ++ [Edge.mk source target (firstEdge g.nodes source)] }

/-- Embeds `Graph::add_node_to`: push the node, then try the edge.  The
first component is the result of the `add_edge` call (`none` embeds its
panic); the second is the graph state at that point, with the node
already pushed; the third is the returned handle. -/
def Graph.add_node_to {T : Type} (g : Graph T) (toIdx : Nat) (data : T) :
    Option (Graph T) × Graph T × Nat :=
  let p := g.add_node data
  (p.1.add_edge toIdx p.2, p.1, p.2)

/-- Embeds the node-mode `Successors::next` loop: follow the chain from
`start`, yielding each edge's target, until `next_edge == none` (or the
fuel runs out; with fuel `edges.length` it never does on a graph
satisfying `EdgesWF`). -/
def successorsFrom (edges : List Edge) : Option Nat → Nat → List Nat
  | _, 0 => []
  | none, _ + 1 => []
  | some i, fuel + 1 =>
    match edges[i]? with
    | none => []
    | some e => e.target :: successorsFrom edges e.next_edge fuel

/-- Embeds the root-mode arm of `Successors::new`: every node index `i`
in ascending order such that no edge has `target == i`. -/
def Graph.rootsList {T : Type} (g : Graph T) : List Nat :=
  (List.range g.nodes.length).filter fun i => ! g.edges.any fun e => e.target == i

/-- Embeds `Graph::successors` with the returned iterator fully
drained.  Node mode panics (`none`) on an out-of-range handle, else
walks the chain from `nodes[i].first_edge`; root mode yields the
precomputed root vector. -/
def Graph.successors {T : Type} (g : Graph T) (source : Option Nat) :
    Option (List Nat) :=
  match source with
  | some i =>
    if g.nodes.length ≤ i then none
    else some (successorsFrom g.edges (firstEdge g.nodes i) g.edges.length)
  | none => some g.rootsList

/-- The body of the `Ancestors::new` collection loop: for an edge whose
target is `frm`, push its source unless already collected or equal to
`frm` itself. -/
def ancestorsStep (frm : Nat) (data : List Nat) (e : Edge) : List Nat :=
  if e.target = frm ∧ e.source ∉ data ∧ e.source ≠ frm then data ++ [e.source]
  else data

/-- Embeds the `Ancestors::new` loop over the whole edge arena. -/
def ancestorsData (edges : List Edge) (frm : Nat) : List Nat :=
  edges.foldl (ancestorsStep frm) []

/-- Embeds `Graph::ancestors` with the returned iterator fully drained:
panic (`none`) on an out-of-range handle, else the collected vector. -/
def Graph.ancestors {T : Type} (g : Graph T) (frm : Nat) : Option (List Nat) :=
  if g.nodes.length ≤ frm then none
  else some (ancestorsData g.edges frm)

/-- `Graph::successors` takes `&self`: the embedding of a call site
returns the result together with the graph the caller goes on using. -/
def Graph.successorsCall {T : Type} (g : Graph T) (source : Option Nat) :
    Option (List Nat) × Graph T :=
  (g.successors source, g)

/-- `Graph::ancestors` takes `&self`: call-site embedding as above. -/
def Graph.ancestorsCall {T : Type} (g : Graph T) (frm : Nat) :
    Option (List Nat) × Graph T :=
  (g.ancestors frm, g)

/-- Chain links point strictly backwards in the edge arena: `add_edge`
always stores the previous head (an older edge) in `next_edge`. -/
def LinksDec (edges : List Edge) : Prop :=
  ∀ (j : Nat) (e : Edge), edges[j]? = some e → ∀ k, e.next_edge = some k → k < j

/-- Arena well-formedness: every chain head and every chain link point
strictly backwards in the edge arena.  Every graph reachable through
the public API satisfies it (`built_inv`). -/
def EdgesWF {T : Type} (g : Graph T) : Prop :=
  (∀ n ∈ g.nodes, ∀ k, n.first_edge = some k → k < g.edges.length) ∧
  LinksDec g.edges

/-- Every edge endpoint refers to an existing node. -/
def SourcesBound {T : Type} (g : Graph T) : Prop :=
  ∀ e ∈ g.edges, e.source < g.nodes.length ∧ e.target < g.nodes.length

/-- The chain of every node enumerates exactly its outgoing edges,
newest first (reverse arena order). -/
def ChainSpec {T : Type} (g : Graph T) : Prop :=
  ∀ s, s < g.nodes.length →
    successorsFrom g.edges (firstEdge g.nodes s) g.edges.length
      = ((g.edges.filter fun e => e.source == s).map Edge.target).reverse

/-- Inductive invariant of API-built graphs. -/
def Inv {T : Type} (g : Graph T) : Prop :=
  EdgesWF g ∧ SourcesBound g ∧ ChainSpec g

/-- Graphs reachable through the public mutation API (`add_node_to` is
the composition of the two constructors and needs no case of its own). -/
inductive Built {T : Type} : Graph T → Prop where
  | new : Built (Graph.new T)
  | add_node (g : Graph T) (d : T) : Built g → Built (g.add_node d).1
  | add_edge (g g' : Graph T) (s t : Nat) :
      Built g → g.add_edge s t = some g' → Built g'

/-- The worked example of the spec: payloads are arbitrary; A, B, C
inserted standalone, D inserted under A, E inserted under D
(handles 0, 1, 2, 3, 4). -/
def demoG3 : Graph Nat :=
  ((((Graph.new Nat).add_node 10).1.add_node 11).1.add_node 12).1

/-- The graph after `add_node_to(A, D)`. -/
def demoG4 : Graph Nat :=
  (demoG3.add_node_to 0 13).1.getD demoG3

/-- The full example graph, after `add_node_to(D, E)`. -/
def demoGraph : Graph Nat :=
  (demoG4.add_node_to 3 14).1.getD demoG4

/-! Basic equations for the fuelled chain walk. -/

theorem succFrom_none (edges : List Edge) (fuel : Nat) :
    successorsFrom edges none fuel = [] := by
  cases fuel <;> rfl

theorem succFrom_some (edges : List Edge) (i fuel : Nat) :
    successorsFrom edges (some i) (fuel + 1)
      = match edges[i]? with
        | none => []
        | some e => e.target :: successorsFrom edges e.next_edge fuel := rfl

/-- Appending fresh edges to the arena does not change a walk that stays
inside the old arena. -/
theorem succFrom_append (edges l : List Edge) (hdec : LinksDec edges) :
    ∀ (fuel : Nat) (o : Option Nat), (∀ i, o = some i → i < edges.length) →
      successorsFrom (edges ++ l) o fuel = successorsFrom edges o fuel := by
  intro fuel
  induction fuel with
  | zero => intro o _; cases o <;> rfl
  | succ f ih =>
    intro o hb
    cases o with
    | none => rw [succFrom_none, succFrom_none]
    | some i =>
      have hi : i < edges.length := hb i rfl
      have he : edges[i]? = some edges[i] := List.getElem?_eq_getElem hi
      rw [succFrom_some, succFrom_some, List.getElem?_append_left hi, he]
      exact congrArg (List.cons _)
        (ih _ fun k hk => Nat.lt_of_lt_of_le (hdec i _ he k hk) (Nat.le_of_lt hi))

/-- On a backwards-linked arena the walk from index `i` is the same for
every fuel larger than `i`: the walk terminates. -/
theorem succFrom_fuel (edges : List Edge) (hdec : LinksDec edges) :
    ∀ (fuel fuel' : Nat) (o : Option Nat),
      (∀ i, o = some i → i < fuel ∧ i < fuel') →
      successorsFrom edges o fuel = successorsFrom edges o fuel' := by
  intro fuel
  induction fuel with
  | zero =>
    intro fuel' o hb
    cases o with
    | none => rw [succFrom_none, succFrom_none]
    | some i => exact absurd (hb i rfl).1 (Nat.not_lt_zero i)
  | succ f ih =>
    intro fuel' o hb
    cases o with
    | none => rw [succFrom_none, succFrom_none]
    | some i =>
      obtain ⟨h1, h2⟩ := hb i rfl
      cases fuel' with
      | zero => exact absurd h2 (Nat.not_lt_zero i)
      | succ f' =>
        rw [succFrom_some, succFrom_some]
        cases hL : edges[i]? with
        | none => rfl
        | some e =>
          refine congrArg (List.cons e.target) (ih f' e.next_edge ?_)
          intro k hk
          have hki := hdec i e hL k hk
          omega

/-! `firstEdge` / `setFirstEdge` bookkeeping. -/

theorem firstEdge_lt {T : Type} (g : Graph T) (hwf : EdgesWF g) (i k : Nat)
    (h : firstEdge g.nodes i = some k) : k < g.edges.length := by
  unfold firstEdge at h
  cases hn : g.nodes[i]? with
  | none => rw [hn] at h; cases h
  | some n => rw [hn] at h; exact hwf.1 n (List.getElem?_mem hn) k h

theorem length_setFirstEdge {T : Type} (nodes : List (Node T)) (i : Nat)
    (e : Option Nat) : (setFirstEdge nodes i e).length = nodes.length := by
  unfold setFirstEdge
  cases nodes[i]? <;> simp

theorem firstEdge_setFirstEdge_self {T : Type} (nodes : List (Node T)) (i : Nat)
    (e : Option Nat) (h : i < nodes.length) :
    firstEdge (setFirstEdge nodes i e) i = e := by
  unfold setFirstEdge firstEdge
  have hn : nodes[i]? = some nodes[i] := List.getElem?_eq_getElem h
  rw [hn]
  simp [List.getElem?_set_self, h]

theorem firstEdge_setFirstEdge_ne {T : Type} (nodes : List (Node T)) (i j : Nat)
    (e : Option Nat) (h : j ≠ i) :
    firstEdge (setFirstEdge nodes i e) j = firstEdge nodes j := by
  unfold setFirstEdge firstEdge
  cases hn : nodes[i]? with
  | none => rfl
  | some n => rw [List.getElem?_set_ne (fun hij => h hij.symm)]

theorem mem_setFirstEdge {T : Type} {nodes : List (Node T)} {i : Nat}
    {e : Option Nat} {n' : Node T} (h : n' ∈ setFirstEdge nodes i e) :
    n' ∈ nodes ∨ ∃ n, n ∈ nodes ∧ n' = { n with first_edge := e } := by
  unfold setFirstEdge at h
  cases hn : nodes[i]? with
  | none => rw [hn] at h; exact Or.inl h
  | some n =>
    rw [hn] at h
    rcases List.mem_or_eq_of_mem_set h with h1 | h2
    · exact Or.inl h1
    · exact Or.inr ⟨n, List.getElem?_mem hn, h2⟩

/-! Characterisation of `Graph.add_edge`. -/

theorem add_edge_some {T : Type} {g g' : Graph T} {s t : Nat}
    (h : g.add_edge s t = some g') :
    2 ≤ g.nodes.length ∧ s ≠ t ∧ s < g.nodes.length ∧ t < g.nodes.length ∧
    (∀ e ∈ g.edges, ¬(e.source = s ∧ e.target = t)) ∧
    g'.nodes = setFirstEdge g.nodes s (some g.edges.length) ∧
    g'.edges = g.edges ++ [Edge.mk s t (firstEdge g.nodes s)] := by
  unfold Graph.add_edge at h
  split at h
  · cases h
  case isFalse h1 =>
    split at h
    · cases h
    case isFalse h2 =>
      injection h with h3
      push_neg at h1
      obtain ⟨hl, hst, hs, ht⟩ := h1
      refine ⟨by omega, hst, by omega, by omega, ?_, h3 ▸ rfl, h3 ▸ rfl⟩
      intro e he hc
      refine h2 ?_
      simp only [List.any_eq_true, Bool.and_eq_true, beq_iff_eq]
      exact ⟨e, he, hc.1, hc.2⟩

theorem add_edge_eq_none_iff {T : Type} (g : Graph T) (s t : Nat) :
    g.add_edge s t = none ↔
      g.nodes.length < 2 ∨ s = t ∨ g.nodes.length ≤ s ∨ g.nodes.length ≤ t ∨
      ∃ e ∈ g.edges, e.source = s ∧ e.target = t := by
  unfold Graph.add_edge
  split
  case isTrue h => exact iff_of_true rfl (by tauto)
  case isFalse h =>
    split
    case isTrue h2 =>
      refine iff_of_true rfl ?_
      right; right; right; right
      simpa only [List.any_eq_true, Bool.and_eq_true, beq_iff_eq] using h2
    case isFalse h2 =>
      refine iff_of_false (by simp) ?_
      intro hc
      rcases hc with hc | hc | hc | hc | ⟨e, he, h3, h4⟩
      · exact h (Or.inl hc)
      · exact h (Or.inr (Or.inl hc))
      · exact h (Or.inr (Or.inr (Or.inl hc)))
      · exact h (Or.inr (Or.inr (Or.inr hc)))
      · refine h2 ?_
        simp only [List.any_eq_true, Bool.and_eq_true, beq_iff_eq]
        exact ⟨e, he, h3, h4⟩

/-! Characterisation of the `Ancestors::new` collection loop. -/

theorem foldl_ancestorsStep_mem (frm y : Nat) :
    ∀ (edges : List Edge) (acc : List Nat),
      (y ∈ edges.foldl (ancestorsStep frm) acc ↔
        y ∈ acc ∨ (y ≠ frm ∧ ∃ e ∈ edges, e.source = y ∧ e.target = frm)) := by
  intro edges
  induction edges with
  | nil => intro acc; simp
  | cons e es ih =>
    intro acc
    rw [List.foldl_cons, ih]
    unfold ancestorsStep
    split
    case isTrue hc =>
      obtain ⟨ht, hnm, hne⟩ := hc
      simp only [List.mem_append, List.mem_singleton]
      constructor
      · rintro ((hy | rfl) | ⟨hyf, e', he', hs, htg⟩)
        · exact Or.inl hy
        · exact Or.inr ⟨hne, e, List.mem_cons_self e es, rfl, ht⟩
        · exact Or.inr ⟨hyf, e', List.mem_cons_of_mem e he', hs, htg⟩
      · rintro (hy | ⟨hyf, e', he', hs, htg⟩)
        · exact Or.inl (Or.inl hy)
        · rcases List.mem_cons.mp he' with rfl | hes
          · exact Or.inl (Or.inr hs.symm)
          · exact Or.inr ⟨hyf, e', hes, hs, htg⟩
    case isFalse hc =>
      constructor
      · rintro (hy | ⟨hyf, e', he', hs, htg⟩)
        · exact Or.inl hy
        · exact Or.inr ⟨hyf, e', List.mem_cons_of_mem e he', hs, htg⟩
      · rintro (hy | ⟨hyf, e', he', hs, htg⟩)
        · exact Or.inl hy
        · rcases List.mem_cons.mp he' with rfl | hes
          · have hmem : e'.source ∈ acc := by
              by_contra hno
              exact hc ⟨htg, hno, by rw [hs]; exact hyf⟩
            exact Or.inl (hs ▸ hmem)
          · exact Or.inr ⟨hyf, e', hes, hs, htg⟩

theorem foldl_ancestorsStep_nodup (frm : Nat) :
    ∀ (edges : List Edge) (acc : List Nat), acc.Nodup →
      (edges.foldl (ancestorsStep frm) acc).Nodup := by
  intro edges
  induction edges with
  | nil => intro acc h; simpa using h
  | cons e es ih =>
    intro acc h
    rw [List.foldl_cons]
    apply ih
    unfold ancestorsStep
    split
    case isTrue hc => simp [List.nodup_append, h, hc.2.1]
    case isFalse _ => exact h

theorem foldl_ancestorsStep_sublist (frm : Nat) :
    ∀ (edges : List Edge) (acc : List Nat),
      ∃ suf, edges.foldl (ancestorsStep frm) acc = acc ++ suf ∧
        suf.Sublist ((edges.filter fun e => e.target == frm).map Edge.source) := by
  intro edges
  induction edges with
  | nil => intro acc; exact ⟨[], by simp, by simp⟩
  | cons e es ih =>
    intro acc
    rw [List.foldl_cons]
    unfold ancestorsStep
    split
    case isTrue hc =>
      obtain ⟨suf, h1, h2⟩ := ih (acc ++ [e.source])
      refine ⟨e.source :: suf, by simpa [List.append_assoc] using h1, ?_⟩
      have ht : (e.target == frm) = true := by simp [hc.1]
      simp only [List.filter_cons, ht, if_true, List.map_cons]
      exact List.Sublist.cons₂ _ h2
    case isFalse hc =>
      obtain ⟨suf, h1, h2⟩ := ih acc
      refine ⟨suf, h1, ?_⟩
      by_cases ht : (e.target == frm) = true
      · simp only [List.filter_cons, ht, if_true, List.map_cons]
        exact h2.cons _
      · simp only [List.filter_cons, ht, if_false]
        exact h2

theorem ancestorsData_mem (edges : List Edge) (frm y : Nat) :
    y ∈ ancestorsData edges frm ↔
      y ≠ frm ∧ ∃ e ∈ edges, e.source = y ∧ e.target = frm := by
  unfold ancestorsData
  rw [foldl_ancestorsStep_mem]
  simp

theorem ancestorsData_nodup (edges : List Edge) (frm : Nat) :
    (ancestorsData edges frm).Nodup :=
  foldl_ancestorsStep_nodup frm edges [] List.nodup_nil

theorem ancestorsData_sublist (edges : List Edge) (frm : Nat) :
    (ancestorsData edges frm).Sublist
      ((edges.filter fun e => e.target == frm).map Edge.source) := by
  obtain ⟨suf, h1, h2⟩ := foldl_ancestorsStep_sublist frm edges []
  unfold ancestorsData
  rw [h1]
  simpa using h2

/-! Characterisation of the root scan. -/

theorem rootsList_mem {T : Type} (g : Graph T) (i : Nat) :
    i ∈ g.rootsList ↔ i < g.nodes.length ∧ ∀ e ∈ g.edges, e.target ≠ i := by
  unfold Graph.rootsList
  simp [List.mem_filter, List.mem_range, List.any_eq_true]

theorem rootsList_sorted {T : Type} (g : Graph T) :
    List.Pairwise (· < ·) g.rootsList :=
  List.Pairwise.filter _ (List.pairwise_lt_range _)

/-! The inductive invariant of API-built graphs. -/

theorem add_node_nodes {T : Type} (g : Graph T) (d : T) :
    (g.add_node d).1.nodes = g.nodes ++ [{ first_edge := none, data := d }] := rfl

theorem add_node_edges {T : Type} (g : Graph T) (d : T) :
    (g.add_node d).1.edges = g.edges := rfl

theorem add_node_idx {T : Type} (g : Graph T) (d : T) :
    (g.add_node d).2 = g.nodes.length := rfl

theorem map_reverse_concat {α β : Type} (f : α → β) (xs : List α) (a : α) :
    ((xs ++ [a]).map f).reverse = f a :: (xs.map f).reverse := by
  simp

theorem inv_new (T : Type) : Inv (Graph.new T) := by
  refine ⟨⟨?_, ?_⟩, ?_, ?_⟩
  · intro n hn k hk
    cases hn
  · intro j e hje k hk
    simp [Graph.new] at hje
  · intro e he
    cases he
  · intro s hs
    simp [Graph.new] at hs

theorem inv_add_node {T : Type} (g : Graph T) (d : T) (h : Inv g) :
    Inv (g.add_node d).1 := by
  obtain ⟨⟨hfe, hdec⟩, hsb, hcs⟩ := h
  refine ⟨⟨?_, ?_⟩, ?_, ?_⟩
  · intro n hn k hk
    rw [add_node_nodes] at hn
    rw [add_node_edges]
    rcases List.mem_append.mp hn with h1 | h1
    · exact hfe n h1 k hk
    · rw [List.mem_singleton] at h1
      subst h1
      cases hk
  · rw [add_node_edges]
    exact hdec
  · intro e he
    rw [add_node_edges] at he
    rw [add_node_nodes]
    have := hsb e he
    simp only [List.length_append, List.length_singleton]
    omega
  · intro s hs
    rw [add_node_nodes] at hs
    rw [add_node_nodes, add_node_edges]
    simp only [List.length_append, List.length_singleton] at hs
    by_cases hlt : s < g.nodes.length
    · have hfeq : firstEdge (g.nodes ++ [{ first_edge := none, data := d }]) s
          = firstEdge g.nodes s := by
        unfold firstEdge
        rw [List.getElem?_append_left hlt]
      rw [hfeq]
      exact hcs s hlt
    · have hseq : s = g.nodes.length := by omega
      subst hseq
      have hfeq : firstEdge (g.nodes ++ [{ first_edge := none, data := d }])
          g.nodes.length = none := by
        unfold firstEdge
        rw [List.getElem?_append_right (Nat.le_refl _)]
        simp
      rw [hfeq, succFrom_none]
      have hfil : (g.edges.filter fun e => e.source == g.nodes.length) = [] := by
        rw [List.filter_eq_nil_iff]
        intro e he
        have := (hsb e he).1
        simp only [beq_iff_eq]
        omega
      rw [hfil]
      rfl

theorem inv_add_edge {T : Type} (g g' : Graph T) (s t : Nat) (h : Inv g)
    (hadd : g.add_edge s t = some g') : Inv g' := by
  obtain ⟨⟨hfe, hdec⟩, hsb, hcs⟩ := h
  obtain ⟨h2n, hst, hslt, htlt, hnodup, hn', he'⟩ := add_edge_some hadd
  have hlen : g'.nodes.length = g.nodes.length := by
    rw [hn', length_setFirstEdge]
  have hfb : ∀ k, firstEdge g.nodes s = some k → k < g.edges.length :=
    fun k hk => firstEdge_lt g ⟨hfe, hdec⟩ s k hk
  refine ⟨⟨?_, ?_⟩, ?_, ?_⟩
  · intro n hn k hk
    rw [hn'] at hn
    rw [he', List.length_append]
    rcases mem_setFirstEdge hn with h1 | ⟨n0, hn0, hcase⟩
    · have := hfe n h1 k hk
      simp only [List.length_singleton]
      omega
    · subst hcase
      have hk2 : some g.edges.length = some k := hk
      injection hk2 with hk3
      simp only [List.length_singleton]
      omega
  · intro j e hje k hk
    rw [he'] at hje
    rcases Nat.lt_trichotomy j g.edges.length with hj | hj | hj
    · rw [List.getElem?_append_left hj] at hje
      exact hdec j e hje k hk
    · subst hj
      rw [List.getElem?_concat_length] at hje
      injection hje with hje
      subst hje
      exact hfb k hk
    · have hge : (g.edges ++ [Edge.mk s t (firstEdge g.nodes s)]).length ≤ j := by
        simp only [List.length_append, List.length_singleton]
        omega
      rw [List.getElem?_eq_none hge] at hje
      cases hje
  · intro e he
    rw [he'] at he
    rw [hlen]
    rcases List.mem_append.mp he with h1 | h1
    · exact hsb e h1
    · rw [List.mem_singleton] at h1
      subst h1
      exact ⟨hslt, htlt⟩
  · intro u hu
    rw [hlen] at hu
    rw [hn', he']
    by_cases hus : u = s
    · subst hus
      rw [firstEdge_setFirstEdge_self g.nodes u (some g.edges.length) hu]
      have hlapp : (g.edges ++ [Edge.mk u t (firstEdge g.nodes u)]).length
          = g.edges.length + 1 := by simp
      rw [hlapp, succFrom_some, List.getElem?_concat_length]
      have hfil : ((g.edges ++ [Edge.mk u t (firstEdge g.nodes u)]).filter
            fun e => e.source == u)
          = (g.edges.filter fun e => e.source == u)
            ++ [Edge.mk u t (firstEdge g.nodes u)] := by
        rw [List.filter_append]
        simp
      rw [hfil, map_reverse_concat]
      show t :: successorsFrom (g.edges ++ [Edge.mk u t (firstEdge g.nodes u)])
            (firstEdge g.nodes u) g.edges.length
          = t :: ((g.edges.filter fun e => e.source == u).map Edge.target).reverse
      rw [succFrom_append g.edges _ hdec g.edges.length (firstEdge g.nodes u) hfb,
        hcs u hu]
    · rw [firstEdge_setFirstEdge_ne g.nodes s u (some g.edges.length) hus]
      have hfbu : ∀ k, firstEdge g.nodes u = some k → k < g.edges.length :=
        fun k hk => firstEdge_lt g ⟨hfe, hdec⟩ u k hk
      have hlapp : (g.edges ++ [Edge.mk s t (firstEdge g.nodes s)]).length
          = g.edges.length + 1 := by simp
      rw [hlapp,
        succFrom_append g.edges _ hdec (g.edges.length + 1) (firstEdge g.nodes u) hfbu,
        succFrom_fuel g.edges hdec (g.edges.length + 1) g.edges.length
          (firstEdge g.nodes u)
          (fun i hi => ⟨Nat.lt_succ_of_lt (hfbu i hi), hfbu i hi⟩),
        hcs u hu]
      have hbeq : ((Edge.mk s t (firstEdge g.nodes s)).source == u) = false := by
        simp only [beq_eq_false_iff_ne]
        exact fun hh => hus hh.symm
      have hfil : ((g.edges ++ [Edge.mk s t (firstEdge g.nodes s)]).filter
            fun e => e.source == u) = g.edges.filter fun e => e.source == u := by
        rw [List.filter_append, List.filter_singleton, hbeq]
        simp
      rw [hfil]

theorem built_inv {T : Type} (g : Graph T) (hb : Built g) : Inv g := by
  induction hb with
  | new => exact inv_new T
  | add_node g0 d _ ih => exact inv_add_node g0 d ih
  | add_edge g0 g1 s t _ hse ih => exact inv_add_edge g0 g1 s t ih hse

/-! The worked example is reachable through the API. -/

theorem demoG3_built : Built demoG3 :=
  Built.add_node _ _ (Built.add_node _ _ (Built.add_node _ _ Built.new))

theorem demoG4_step : (demoG3.add_node 13).1.add_edge 0 3 = some demoG4 := rfl

theorem demoG4_built : Built demoG4 :=
  Built.add_edge _ _ 0 3 (Built.add_node _ _ demoG3_built) demoG4_step

theorem demoGraph_step : (demoG4.add_node 14).1.add_edge 3 4 = some demoGraph := rfl

theorem demoGraph_built : Built demoGraph :=
  Built.add_edge _ _ 3 4 (Built.add_node _ _ demoG4_built) demoGraph_step

/-! Query evaluation on valid handles. -/

theorem successors_valid {T : Type} (g : Graph T) (i : Nat) (h : i < g.nodes.length) :
    g.successors (some i)
      = some (successorsFrom g.edges (firstEdge g.nodes i) g.edges.length) := by
  show (if g.nodes.length ≤ i then none
    else some (successorsFrom g.edges (firstEdge g.nodes i) g.edges.length)) = _
  rw [if_neg (by omega)]

theorem ancestors_valid {T : Type} (g : Graph T) (i : Nat) (h : i < g.nodes.length) :
    g.ancestors i = some (ancestorsData g.edges i) := by
  unfold Graph.ancestors
  rw [if_neg (by omega)]

/-! The claims. -/

/-- Claim C1, counterexample: on the spec's own scenario (A, B, C
standalone, D under A, E under D) the code returns only the direct
parent `[D]` for `ancestors(E)`, not the claimed transitive closure
`[D, A]`: `Ancestors::new` performs a single non-recursive scan of the
edge arena. -/
theorem ancestors_demo_not_transitive :
    demoGraph.ancestors 4 = some [3] ∧ demoGraph.ancestors 4 ≠ some [3, 0] := by
  constructor
  · rfl
  · decide

/-- Claim C1 (amended): `ancestors(from)` fails on an out-of-range
handle and otherwise returns the deduplicated list of direct
predecessors of `from` — the sources of edges whose target is `from` —
excluding `from` itself, in edge-arena scan order (order of first
matching edge). -/
theorem ancestors_direct_predecessors {T : Type} (g : Graph T) (frm : Nat)
    (l : List Nat) (h : g.ancestors frm = some l) :
    frm < g.nodes.length ∧ l.Nodup ∧
    (∀ y, y ∈ l ↔ y ≠ frm ∧ ∃ e ∈ g.edges, e.source = y ∧ e.target = frm) ∧
    l.Sublist ((g.edges.filter fun e => e.target == frm).map Edge.source) := by
  unfold Graph.ancestors at h
  split at h
  · cases h
  case isFalse hle =>
    injection h with h
    subst h
    exact ⟨by omega, ancestorsData_nodup _ _, fun y => ancestorsData_mem _ _ _,
      ancestorsData_sublist _ _⟩

/-- Witness for the amended C1, at the spec's scenario: E's ancestors
are exactly its direct parent D. -/
theorem ancestors_direct_predecessors_witness :
    4 < demoGraph.nodes.length ∧ ([3] : List Nat).Nodup ∧
    (∀ y, y ∈ ([3] : List Nat) ↔
      y ≠ 4 ∧ ∃ e ∈ demoGraph.edges, e.source = y ∧ e.target = 4) ∧
    ([3] : List Nat).Sublist
      ((demoGraph.edges.filter fun e => e.target == 4).map Edge.source) :=
  ancestors_direct_predecessors demoGraph 4 [3] rfl

/-- Claim C2: after a successful `add_edge s t`, `t` appears in
`successors(s)` and `s` appears in `ancestors(t)`. -/
theorem add_edge_mem_queries {T : Type} (g g' : Graph T) (s t : Nat)
    (h : g.add_edge s t = some g') :
    (∃ l, g'.successors (some s) = some l ∧ t ∈ l) ∧
    (∃ l, g'.ancestors t = some l ∧ s ∈ l) := by
  obtain ⟨h2n, hst, hslt, htlt, hnodup, hn', he'⟩ := add_edge_some h
  have hlen : g'.nodes.length = g.nodes.length := by
    rw [hn', length_setFirstEdge]
  constructor
  · rw [successors_valid g' s (by omega)]
    refine ⟨_, rfl, ?_⟩
    have hfe : firstEdge g'.nodes s = some g.edges.length := by
      rw [hn']
      exact firstEdge_setFirstEdge_self g.nodes s _ hslt
    have hlen2 : g'.edges.length = g.edges.length + 1 := by rw [he']; simp
    rw [hfe, hlen2, succFrom_some, he', List.getElem?_concat_length]
    exact List.mem_cons_self _ _
  · rw [ancestors_valid g' t (by omega)]
    refine ⟨_, rfl, ?_⟩
    rw [he', ancestorsData_mem]
    exact ⟨hst, Edge.mk s t (firstEdge g.nodes s), by simp, rfl, rfl⟩

/-- Witness for C2, at the spec's scenario edge `(D, E) = (3, 4)`. -/
theorem add_edge_mem_queries_witness :
    (∃ l, demoGraph.successors (some 3) = some l ∧ 4 ∈ l) ∧
    (∃ l, demoGraph.ancestors 4 = some l ∧ 3 ∈ l) :=
  add_edge_mem_queries (demoG4.add_node 14).1 demoGraph 3 4 rfl

/-- Claim C3: `add_edge(s, t)` fails exactly when the graph has fewer
than two nodes, or `s = t`, or an endpoint is out of range, or the pair
already exists; otherwise it succeeds. -/
theorem add_edge_failure_iff {T : Type} (g : Graph T) (s t : Nat) :
    g.add_edge s t = none ↔
      g.nodes.length < 2 ∨ s = t ∨ g.nodes.length ≤ s ∨ g.nodes.length ≤ t ∨
      ∃ e ∈ g.edges, e.source = s ∧ e.target = t :=
  add_edge_eq_none_iff g s t

/-- Claim C4: a successful `add_edge s t` appends the new edge with
`next_edge` equal to the prior `node[s].first_edge`, updates
`node[s].first_edge` to the new edge's handle, and consequently
`successors(s)` yields the targets of `s`'s edges in reverse insertion
order (most recently added first). -/
theorem add_edge_prepend_order {T : Type} (g g' : Graph T) (s t : Nat)
    (hb : Built g) (h : g.add_edge s t = some g') :
    g'.edges = g.edges ++ [Edge.mk s t (firstEdge g.nodes s)] ∧
    firstEdge g'.nodes s = some g.edges.length ∧
    g'.successors (some s)
      = some (((g'.edges.filter fun e => e.source == s).map Edge.target).reverse) := by
  obtain ⟨h2n, hst, hslt, htlt, hnodup, hn', he'⟩ := add_edge_some h
  have hinv' : Inv g' := inv_add_edge g g' s t (built_inv g hb) h
  have hlen : g'.nodes.length = g.nodes.length := by
    rw [hn', length_setFirstEdge]
  refine ⟨he', ?_, ?_⟩
  · rw [hn']
    exact firstEdge_setFirstEdge_self g.nodes s _ hslt
  · rw [successors_valid g' s (by omega)]
    exact congrArg some (hinv'.2.2 s (by omega))

/-- Witness for C4, at the spec's scenario edge `(D, E) = (3, 4)`. -/
theorem add_edge_prepend_order_witness :
    demoGraph.edges = (demoG4.add_node 14).1.edges
        ++ [Edge.mk 3 4 (firstEdge (demoG4.add_node 14).1.nodes 3)] ∧
    firstEdge demoGraph.nodes 3 = some (demoG4.add_node 14).1.edges.length ∧
    demoGraph.successors (some 3)
      = some (((demoGraph.edges.filter fun e => e.source == 3).map Edge.target).reverse) :=
  add_edge_prepend_order (demoG4.add_node 14).1 demoGraph 3 4
    (Built.add_node _ _ demoG4_built) rfl

/-- Claim C5: `add_node` always succeeds, returns the pre-insertion
node count as the handle, and appends a node holding the payload with
no outgoing edge; the edge arena is untouched. -/
theorem add_node_spec {T : Type} (g : Graph T) (d : T) :
    (g.add_node d).2 = g.nodes.length ∧
    (g.add_node d).1.nodes.length = g.nodes.length + 1 ∧
    (g.add_node d).1.nodes[g.nodes.length]? = some { first_edge := none, data := d } ∧
    (g.add_node d).1.edges = g.edges := by
  refine ⟨rfl, ?_, ?_, rfl⟩
  · rw [add_node_nodes]
    simp
  · rw [add_node_nodes, List.getElem?_concat_length]

/-- Claim C6: root mode (`successors(none)`) returns exactly the node
handles no edge targets, in ascending index order, and returns the
empty sequence on the empty graph. -/
theorem roots_spec {T : Type} (g : Graph T) :
    g.successors none = some g.rootsList ∧
    (∀ i, i ∈ g.rootsList ↔ i < g.nodes.length ∧ ∀ e ∈ g.edges, e.target ≠ i) ∧
    List.Pairwise (· < ·) g.rootsList ∧
    (Graph.new T).successors none = some [] :=
  ⟨rfl, fun i => rootsList_mem g i, rootsList_sorted g, rfl⟩

/-- Claim C7: on a handle `≥` node count, both queries fail (the Rust
code panics, embedded as `none`) rather than returning an empty
sequence. -/
theorem invalid_handle_queries {T : Type} (g : Graph T) (h : Nat)
    (hge : g.nodes.length ≤ h) :
    g.successors (some h) = none ∧ g.ancestors h = none := by
  constructor
  · show (if g.nodes.length ≤ h then none
      else some (successorsFrom g.edges (firstEdge g.nodes h) g.edges.length)) = none
    rw [if_pos hge]
  · unfold Graph.ancestors
    rw [if_pos hge]

/-- Witness for C7: handle 0 on the empty graph. -/
theorem invalid_handle_queries_witness :
    (Graph.new Nat).nodes.length ≤ 0 ∧
    (Graph.new Nat).successors (some 0) = none ∧
    (Graph.new Nat).ancestors 0 = none := by
  refine ⟨Nat.le_refl 0, ?_⟩
  exact invalid_handle_queries (Graph.new Nat) 0 (Nat.le_refl 0)

/-- Claim C8: `add_node_to(parent, payload)` is the composition of
`add_node` with `add_edge(parent, new_handle)`, returns the new node's
handle, and fails exactly under `add_edge`'s failure conditions for
that pair. -/
theorem add_node_to_composes {T : Type} (g : Graph T) (toIdx : Nat) (d : T) :
    (g.add_node_to toIdx d).2.2 = g.nodes.length ∧
    (g.add_node_to toIdx d).2.1 = (g.add_node d).1 ∧
    (g.add_node_to toIdx d).1 = (g.add_node d).1.add_edge toIdx (g.add_node d).2 ∧
    ((g.add_node_to toIdx d).1 = none ↔
      toIdx = g.nodes.length ∨ g.nodes.length + 1 ≤ toIdx ∨
      ∃ e ∈ g.edges, e.source = toIdx ∧ e.target = g.nodes.length) := by
  refine ⟨rfl, rfl, rfl, ?_⟩
  show (g.add_node d).1.add_edge toIdx (g.add_node d).2 = none ↔ _
  rw [add_node_idx, add_edge_eq_none_iff, add_node_nodes, add_node_edges]
  simp only [List.length_append, List.length_singleton]
  constructor
  · rintro (h | h | h | h | h)
    · have h2 : toIdx = g.nodes.length ∨ g.nodes.length + 1 ≤ toIdx := by omega
      rcases h2 with h2 | h2
      · exact Or.inl h2
      · exact Or.inr (Or.inl h2)
    · exact Or.inl h
    · exact Or.inr (Or.inl h)
    · omega
    · exact Or.inr (Or.inr h)
  · rintro (h | h | h)
    · exact Or.inr (Or.inl h)
    · exact Or.inr (Or.inr (Or.inl h))
    · exact Or.inr (Or.inr (Or.inr (Or.inr h)))

/-- Claim C9: the queries take the graph read-only — the call-site
embedding returns the graph unchanged and re-invocation yields the same
result — and the node-mode sequence is finite: on a well-formed arena
the chain walk is stable under any fuel of at least `edges.length`
(the iterator terminates instead of looping). -/
theorem queries_readonly {T : Type} (g : Graph T) (hwf : EdgesWF g) :
    (∀ src, (g.successorsCall src).2 = g ∧
      ((g.successorsCall src).2.successorsCall src).1 = (g.successorsCall src).1) ∧
    (∀ frm, (g.ancestorsCall frm).2 = g ∧
      ((g.ancestorsCall frm).2.ancestorsCall frm).1 = (g.ancestorsCall frm).1) ∧
    (∀ i fuel, i < g.nodes.length → g.edges.length ≤ fuel →
      successorsFrom g.edges (firstEdge g.nodes i) fuel
        = successorsFrom g.edges (firstEdge g.nodes i) g.edges.length) := by
  refine ⟨fun src => ⟨rfl, rfl⟩, fun frm => ⟨rfl, rfl⟩, ?_⟩
  intro i fuel hi hfuel
  refine succFrom_fuel g.edges hwf.2 fuel g.edges.length (firstEdge g.nodes i) ?_
  intro k hk
  have := firstEdge_lt g hwf i k hk
  omega

/-- Witness for C9, at the spec's scenario graph with surplus fuel. -/
theorem queries_readonly_witness :
    (demoGraph.successorsCall (some 0)).2 = demoGraph ∧
    ((demoGraph.successorsCall (some 0)).2.successorsCall (some 0)).1
      = (demoGraph.successorsCall (some 0)).1 ∧
    (demoGraph.ancestorsCall 4).2 = demoGraph ∧
    successorsFrom demoGraph.edges (firstEdge demoGraph.nodes 3) 7
      = successorsFrom demoGraph.edges (firstEdge demoGraph.nodes 3)
          demoGraph.edges.length := by
  have h := queries_readonly demoGraph (built_inv demoGraph demoGraph_built).1
  exact ⟨(h.1 (some 0)).1, (h.1 (some 0)).2, (h.2.1 4).1,
    h.2.2 3 7 (by decide) (by decide)⟩

/-- Claim C10: `add_node_to` is not atomic on failure — the node has
already been appended when the edge insertion fails, so the observable
state at the failure point holds one more node than before the call. -/
theorem add_node_to_not_atomic {T : Type} (g : Graph T) (toIdx : Nat) (d : T)
    (hfail : (g.add_node_to toIdx d).1 = none) :
    (g.add_node_to toIdx d).2.1.nodes = g.nodes ++ [{ first_edge := none, data := d }] ∧
    (g.add_node_to toIdx d).2.1.nodes.length = g.nodes.length + 1 := by
  refine ⟨rfl, ?_⟩
  show (g.nodes ++ [({ first_edge := none, data := d } : Node T)]).length
    = g.nodes.length + 1
  simp

/-- Witness for C10: `add_node_to` on the empty graph fails (fewer than
two nodes for the edge) yet has appended the node. -/
theorem add_node_to_not_atomic_witness :
    ((Graph.new Nat).add_node_to 0 7).1 = none ∧
    ((Graph.new Nat).add_node_to 0 7).2.1.nodes
        = (Graph.new Nat).nodes ++ [{ first_edge := none, data := 7 }] ∧
    ((Graph.new Nat).add_node_to 0 7).2.1.nodes.length
        = (Graph.new Nat).nodes.length + 1 := by
  refine ⟨rfl, ?_⟩
  exact add_node_to_not_atomic (Graph.new Nat) 0 7 rfl

end Tap
